import Mathlib

/-!
Verification of the `vira` router trie (`src/trie.go`).

The Go code is shallowly embedded as follows.

* Go `*Node` pointers are modelled by indices (`NodeId`) into an arena
  (`List NodeData`) carried inside `Trie`, so pointer identity and
  structure sharing are observable.
* Go maps (`children`, `handlers`) are association lists with
  insert-or-overwrite update; Go slices are lists.
* `regexp.Regexp` values are modelled by their source string (Go's
  `Regexp.String()`); `regexp.MatchString` is modelled by
  `goRegexMatchString`, which interprets exactly the regex sources used in
  the verified patterns with Go's unanchored leftmost-match semantics.
* Go byte indexing of paths is modelled by `Char` lists; paths and
  patterns considered here segment identically either way because `/`
  never occurs inside a multi-byte UTF-8 sequence; Go's
  `strings.ToLower` is modelled on the ASCII range (`Char.toLower`).
* Go panics are modelled by `Except.error`; functions that cannot panic
  return plain values.
* `sort.SliceStable` is modelled by its documented contract (a stable
  sort for the given `less`), realized by insertion sort (`sliceStable`);
  stable sorts are extensionally unique, so this is faithful.
-/

set_option maxRecDepth 8192

namespace Vira

/-! ## Models of the Go standard-library string operations used by trie.go -/

/-- The apostrophe character, written via its code point. -/
def apos : Char := Char.ofNat 39

/-- Character class `[A-Za-z0-9!$%&'*+,-.:;=@_~]` used by `suffixReg` and
`doubleColonReg` in trie.go. -/
def pathChar (c : Char) : Bool :=
  c.isAlpha || c.isDigit || c = '!' || c = '$' || c = '%' || c = '&' ||
  c = apos || c = '*' || c = '+' || c = ',' || c = '-' || c = '.' ||
  c = ':' || c = ';' || c = '=' || c = '@' || c = '_' || c = '~'

/-- Model of `doubleColonReg.MatchString`, regex `^::[A-Za-z0-9!$%&'*+,-.:;=@_~]*$`. -/
def isDoubleColon (s : String) : Bool :=
  match s.data with
  | ':' :: ':' :: rest => rest.all pathChar
  | _ => false

/-- Model of `wordReg.MatchString`, regex `^\w+$` (Go `\w` is `[0-9A-Za-z_]`). -/
def isWord (s : String) : Bool :=
  !s.data.isEmpty && s.data.all (fun c => c.isAlphanum || c = '_')

/-- Helper for `suffixFind`: leftmost position whose character is `+` and
whose remainder lies in the class, matching regex `\+[class]*$`. -/
def suffixFindChars : List Char → List Char
  | [] => []
  | c :: rest =>
    if c = '+' && rest.all pathChar then c :: rest else suffixFindChars rest

/-- Model of `suffixReg.FindString`, returning the leftmost match of
`\+[A-Za-z0-9!$%&'*+,-.:;=@_~]*$` (empty string when there is none). -/
def suffixFind (s : String) : String := String.mk (suffixFindChars s.data)

/-- Model of `strings.Contains(s, "//")`. -/
def hasDoubleSlash : List Char → Bool
  | [] => false
  | [_] => false
  | c :: d :: rest => (c = '/' && d = '/') || hasDoubleSlash (d :: rest)

/-- Model of `multiSlashReg.ReplaceAllString(path, "/")` for regex `/{2,}`:
every maximal run of consecutive slashes collapses to a single slash. -/
def collapseSlashes : List Char → List Char
  | [] => []
  | [c] => [c]
  | c :: d :: rest =>
    if c = '/' && d = '/' then collapseSlashes (d :: rest)
    else c :: collapseSlashes (d :: rest)

/-- Model of trie.go's `fixPath` (guard included as in the source). -/
def fixPath (p : String) : String :=
  if hasDoubleSlash p.data then String.mk (collapseSlashes p.data) else p

/-- Model of `strings.ToLower` on the ASCII range. -/
def strToLower (s : String) : String := String.mk (s.data.map Char.toLower)

/-- Model of Go string slicing `s[n:]`. -/
def strDrop (s : String) (n : Nat) : String := String.mk (s.data.drop n)

/-- Model of Go string slicing `s[:n]`. -/
def strTake (s : String) (n : Nat) : String := String.mk (s.data.take n)

/-- Model of Go string slicing `s[:len(s)-n]`. -/
def strDropEnd (s : String) (n : Nat) : String :=
  String.mk (s.data.take (s.data.length - n))

/-- Model of Go `len` on the strings appearing here (see header note). -/
def strLen (s : String) : Nat := s.data.length

/-- Model of `strings.HasSuffix`. -/
def strEndsWith (s t : String) : Bool := t.data.isSuffixOf s.data

/-- Model of `strings.Split(s, "/")` (never returns an empty list). -/
def splitOnSlash : List Char → List (List Char)
  | [] => [[]]
  | c :: rest =>
    if c = '/' then [] :: splitOnSlash rest
    else
      match splitOnSlash rest with
      | [] => [[c]]
      | seg :: segs => (c :: seg) :: segs

/-- Split a string into its `/`-separated segments. -/
def splitSegs (s : String) : List String := (splitOnSlash s.data).map String.mk

/-- Join segments with `/`; used to express Go's `path[start:end]` (the raw
remainder of the path from the current segment on). -/
def joinSlash : List String → String
  | [] => ""
  | [s] => s
  | s :: rest => s ++ "/" ++ joinSlash rest

/-- Model of `strings.IndexRune` (position of the first occurrence). -/
def idxOfChar (c : Char) : List Char → Option Nat
  | [] => none
  | d :: rest => if d = c then some 0 else (idxOfChar c rest).map (· + 1)

/-- Model of `regexp.MatchString` for the compiled user regexes appearing in
the verified patterns. Go's `MatchString` reports whether the string
contains a match anywhere (unanchored): `^\d+$` is self-anchored and holds
iff the whole string is a nonempty digit run, while `\d` holds iff some
character is a digit. Other regex sources do not occur in any pattern used
below. -/
def goRegexMatchString (re : String) (s : String) : Bool :=
  if re = "^\\d+$" then !s.data.isEmpty && s.data.all Char.isDigit
  else if re = "\\d" then s.data.any Char.isDigit
  else false

/-! ## Data model (trie.go `Node`, `Trie`, `Matched`, `Options`) -/

/-- Node arena index, modelling a Go `*Node`. -/
abbrev NodeId := Nat

/-- Model of trie.go `Node`. Handler values are opaque `interface` data in
Go and are modelled by numeric tokens. -/
structure NodeData where
  name : String := ""
  allow : String := ""
  pattern : String := ""
  segment : String := ""
  suffix : String := ""
  endpoint : Bool := false
  wildcard : Bool := false
  parent : Option NodeId := none
  varyChildren : List NodeId := []
  children : List (String × NodeId) := []
  handlers : List (String × Nat) := []
  regex : Option String := none
  deriving Repr, DecidableEq

/-- Model of trie.go `Trie`; `nodes` is the arena holding every `Node`. -/
structure Trie where
  ignoreCase : Bool
  fpr : Bool
  tsr : Bool
  root : NodeId
  nodes : List NodeData
  deriving Repr, DecidableEq

/-- Model of trie.go `Matched`. -/
structure Matched where
  Node : Option NodeId := none
  Params : List (String × String) := []
  FPR : String := ""
  TSR : String := ""
  deriving Repr, DecidableEq

/-- Model of trie.go `Options`. -/
structure Options where
  IgnoreCase : Bool := false
  FixedPathRedirect : Bool := false
  TrailingSlashRedirect : Bool := false
  deriving Repr, DecidableEq

/-- Model of trie.go `defaultOptions`. -/
def defaultOptions : Options :=
  { IgnoreCase := true, TrailingSlashRedirect := true, FixedPathRedirect := true }

/-- Dereference a `NodeId` in the arena. -/
def getNode (store : List NodeData) (i : NodeId) : NodeData := store.getD i {}

/-- Replace the node at an arena index. -/
def setNode (store : List NodeData) (i : NodeId) (d : NodeData) : List NodeData :=
  store.set i d

/-- Go map assignment `m[k] = v` on an association list. -/
def setAssoc (m : List (String × NodeId)) (k : String) (v : NodeId) :
    List (String × NodeId) :=
  if m.any (fun p => p.1 = k) then m.map (fun p => if p.1 = k then (k, v) else p)
  else m ++ [(k, v)]

/-- Model of `Node.getChild`: lookup in the `children` map. -/
def getChild (store : List NodeData) (i : NodeId) (segment : String) : Option NodeId :=
  ((getNode store i).children.find? (fun p => p.1 = segment)).map (·.2)

/-- Model of trie.go `New`. -/
def newTrie (options : Options) : Trie :=
  { ignoreCase := options.IgnoreCase
    fpr := options.FixedPathRedirect
    tsr := options.TrailingSlashRedirect
    root := 0
    nodes := [{ parent := none }] }

/-! ## Pattern compiler (trie.go `parseNode`, `defineNode`, `Trie.Define`) -/

/-- The comparator passed to `sort.SliceStable` in `parseNode`
(trie.go lines 278-290), translated case for case. -/
def varyLess (a b : NodeData) : Bool :=
  if a.suffix = "" ∧ b.suffix ≠ "" then false
  else if a.suffix ≠ "" ∧ b.suffix = "" then true
  else if a.regex.isSome ∧ b.regex = none then true
  else false

/-- The comparator lifted to arena indices. -/
def varyLessId (store : List NodeData) (i j : NodeId) : Bool :=
  varyLess (getNode store i) (getNode store j)

/-- Insert into a sorted list, after every strictly-smaller element and
before the first tie: the insertion step of a stable sort. -/
def orderedIns (less : α → α → Bool) (x : α) : List α → List α
  | [] => [x]
  | y :: ys => if less y x then y :: orderedIns less x ys else x :: y :: ys

/-- Model of `sort.SliceStable` by its contract (a stable sort for `less`),
realized as insertion sort. -/
def sliceStable (less : α → α → Bool) : List α → List α
  | [] => []
  | x :: xs => orderedIns less x (sliceStable less xs)

/-- The `check if node exists` loop of `parseNode` (trie.go lines 252-275),
translated faithfully. NB: the source ranges over `node.varyChildren` - the
varyChildren list of the freshly allocated node, which is always empty - and
not over `parent.varyChildren`, so at run time this loop never executes. -/
def checkVaryDup (store : List NodeData) (node : NodeData) :
    List NodeId → Except String (Option NodeId)
  | [] => .ok none
  | cid :: rest =>
    let child := getNode store cid
    if child.wildcard then
      if node.wildcard then .error "cant define pattern after wildcard"
      else if child.name ≠ node.name then .error "cant define different named parameter"
      else .ok (some cid)
    else if child.suffix ≠ node.suffix then checkVaryDup store node rest
    else if (node.wildcard ∧ child.regex = none ∧ node.regex = none) ∨
        (child.regex.isSome ∧ node.regex.isSome ∧ child.regex = node.regex) then
      if child.name ≠ node.name then .error "invalid pattern name as prev defined"
      else .ok (some cid)
    else checkVaryDup store node rest

/-- Append a static child under `key` (the `parent.children[key] = node`
lines of `parseNode`); the new node's id is the old arena length. -/
def addChild (store : List NodeData) (parentId : NodeId) (key : String)
    (node : NodeData) : List NodeData :=
  let store1 := store ++ [node]
  let p := getNode store1 parentId
  setNode store1 parentId { p with children := setAssoc p.children key store.length }

/-- Append `nodeId` to `parent.varyChildren` and stably re-sort when the
list has more than one element (trie.go lines 276-291); `store` already
contains the new node. -/
def addVary (store : List NodeData) (parentId : NodeId) (nodeId : NodeId) :
    List NodeData :=
  let p := getNode store parentId
  let vcs := p.varyChildren ++ [nodeId]
  let vcs := if vcs.length > 1 then sliceStable (varyLessId store) vcs else vcs
  setNode store parentId { p with varyChildren := vcs }

/-- Substring `s[a:b]` of a Go string. -/
def strSub (s : String) (a b : Nat) : String :=
  String.mk ((s.data.drop a).take (b - a))

/-- The regex-extraction step of `parseNode`'s `:`-branch: Go's
`if name[len(name)-1] == ')' ...` block on lines 232-242. An empty `name`
makes the Go index expression panic (runtime index-out-of-range). -/
def regexStep (name : String) (node : NodeData) :
    Except String (String × NodeData) :=
  match name.data.getLast? with
  | none => .error "runtime error: index out of range"
  | some last =>
    if last = ')' then
      match idxOfChar '(' name.data with
      | some index =>
        if index > 0 then
          let regex := strSub name (index + 1) (strLen name - 1)
          if strLen regex > 0 then
            .ok (strTake name index, { node with regex := some regex })
          else .error "invalid pattern"
        else .ok (name, node)
      | none => .ok (name, node)
    else .ok (name, node)

/-- The `:`-branch of `parseNode` (trie.go lines 215-291) for a freshly
allocated `node`; `name0` is `segment[1:]` and `nodeId` is the arena index
the node will receive. Go's `switch name[len(name)-1]` panics when `name`
is empty. -/
def parseVary (store : List NodeData) (parentId : NodeId) (nodeId : NodeId)
    (node : NodeData) (name0 : String) : Except String (List NodeData × NodeId) :=
  match name0.data.getLast? with
  | none => .error "runtime error: index out of range"
  | some lastChar =>
    let step : Except String (String × NodeData) :=
      if lastChar = '*' then
        .ok (strDropEnd name0 1, { node with wildcard := true })
      else
        let sfx := suffixFind name0
        if sfx ≠ "" then
          let name1 := strDropEnd name0 (strLen sfx)
          let nodeSuffix := strDrop sfx 1
          if nodeSuffix = "" then .error "invalid pattern"
          else regexStep name1 { node with suffix := nodeSuffix }
        else regexStep name0 node
    match step with
    | .error e => .error e
    | .ok (name, node1) =>
      if ¬ isWord name then .error "invalid pattern"
      else
        let node2 := { node1 with name := name }
        match checkVaryDup store node2 node2.varyChildren with
        | .error e => .error e
        | .ok (some existing) => .ok (store, existing)
        | .ok none =>
          let store1 := store ++ [node2]
          .ok (addVary store1 parentId nodeId, nodeId)

/-- Model of trie.go `parseNode`. The branch order follows the Go `switch`
on lines 207-301. -/
def parseNode (store : List NodeData) (parentId : NodeId) (segment : String)
    (ignoreCase : Bool) : Except String (List NodeData × NodeId) :=
  let originalSegment0 := if isDoubleColon segment then strDrop segment 1 else segment
  let originalSegment := if ignoreCase then strToLower originalSegment0 else originalSegment0
  match getChild store parentId originalSegment with
  | some n => .ok (store, n)
  | none =>
    let nodeId := store.length
    let node : NodeData := { segment := segment, parent := some parentId }
    match segment.data with
    | [] => .ok (addChild store parentId segment node, nodeId)
    | c :: restChars =>
      if isDoubleColon segment then
        .ok (addChild store parentId originalSegment node, nodeId)
      else if c = ':' then
        parseVary store parentId nodeId node (String.mk restChars)
      else if c = '*' ∨ c = '(' ∨ c = ')' then
        .error "invalid pattern"
      else if segment.data.getLast? = some '*' then
        let node1 := { node with wildcard := true }
        .ok (addChild store parentId (strDropEnd originalSegment 1) node1, nodeId)
      else
        .ok (addChild store parentId originalSegment node, nodeId)

/-- Model of trie.go `defineNode`. Go would panic on an empty slice; the
callers always pass the nonempty result of a split. -/
def defineNode (store : List NodeData) (nodeId : NodeId) (patternSeg : List String)
    (ignoreCase : Bool) : Except String (List NodeData × NodeId) :=
  match patternSeg with
  | [] => .error "runtime error: index out of range"
  | segment :: segments =>
    match parseNode store nodeId segment ignoreCase with
    | .error e => .error e
    | .ok (store1, childId) =>
      if segments.isEmpty then
        let c := getNode store1 childId
        .ok (setNode store1 childId { c with endpoint := true }, childId)
      else if (getNode store1 childId).wildcard then
        .error "cant define pattern after wildcard"
      else defineNode store1 childId segments ignoreCase

/-- Model of `Trie.Define`. -/
def Trie.define (t : Trie) (pattern : String) : Except String (Trie × NodeId) :=
  if hasDoubleSlash pattern.data then .error "pattern contains multiple slashes"
  else
    let procPattern0 :=
      match pattern.data with
      | '/' :: rest => String.mk rest
      | _ => pattern
    let procPattern :=
      match idxOfChar '?' procPattern0.data with
      | none => procPattern0
      | some i => strTake procPattern0 i
    match defineNode t.nodes t.root (splitSegs procPattern) t.ignoreCase with
    | .error e => .error e
    | .ok (store1, nodeId) =>
      let n := getNode store1 nodeId
      let store2 :=
        if n.pattern = "" then setNode store1 nodeId { n with pattern := pattern }
        else store1
      .ok ({ t with nodes := store2 }, nodeId)

/-! ## Matcher (trie.go `matchNode`, `Trie.Match`, `fixPath`) -/

/-- The per-candidate acceptance test of `matchNode`'s loop over
`varyChildren` (trie.go lines 403-415): suffix presence and strict
superstring check, then the regex on the suffix-stripped text. -/
def varyAccept (store : List NodeData) (segment : String) (childId : NodeId) : Bool :=
  let child := getNode store childId
  if child.suffix ≠ "" then
    if segment = child.suffix ∨ ¬ strEndsWith segment child.suffix then false
    else
      match child.regex with
      | some re => goRegexMatchString re (strDropEnd segment (strLen child.suffix))
      | none => true
  else
    match child.regex with
    | some re => goRegexMatchString re segment
    | none => true

/-- Model of trie.go `matchNode`: exact-match child first; an empty segment
never consults `varyChildren`; otherwise the first accepting vary child. -/
def matchNodeF (store : List NodeData) (parentId : NodeId) (segment : String) :
    Option NodeId :=
  match getChild store parentId segment with
  | some c => some c
  | none =>
    if segment = "" then none
    else (getNode store parentId).varyChildren.find? (varyAccept store segment)

/-- Go map assignment `Params[k] = v` on an association list. -/
def setParam (ps : List (String × String)) (k v : String) : List (String × String) :=
  if ps.any (fun p => p.1 = k) then ps.map (fun p => if p.1 = k then (k, v) else p)
  else ps ++ [(k, v)]

/-- The switch after `Match`'s walk loop (trie.go lines 380-394): endpoint
success (or `FPR` when the path was corrected), else the trailing-slash
`TSR`/`FPR` hint when a literal empty-segment child exists. -/
def finishWalk (tsr fpr : Bool) (store : List NodeData) (path : String)
    (fixedLen : Nat) (parentId : NodeId) (params : List (String × String)) : Matched :=
  let parent := getNode store parentId
  if parent.endpoint then
    if fpr ∧ fixedLen > 0 then { Params := params, FPR := path }
    else { Params := params, Node := some parentId }
  else if tsr ∧ (getChild store parentId "").isSome then
    if fpr ∧ fixedLen > 0 then { Params := params, FPR := path ++ "/" }
    else { Params := params, TSR := path ++ "/" }
  else { Params := params }

/-- The walk loop of `Trie.Match` (trie.go lines 340-378). The Go loop
enumerates the byte positions of `/` plus the end of `path`, so it
processes exactly the `/`-separated segments of `path[1:]` in order; the
remaining segment list stands for the positions `start..end`, and Go's
`path[start:end]` (wildcard capture) is `joinSlash` of the remaining
segments. The arena is threaded through and returned at every exit,
mirroring that the Go loop holds the trie by reference but only reads it.
Exits: a dead end mid-walk returns the accumulated `Params` (with the
trailing-slash `TSR`/`FPR` hint when the final empty segment failed under a
matched endpoint parent); a wildcard match captures the whole remainder and
breaks; exhausting the segments (the `[]` case, reached when the Go loop
runs off the last segment) falls through to `finishWalk`. -/
def matchLoop (ignoreCase tsr fpr : Bool) (store : List NodeData) (path : String)
    (fixedLen : Nat) (parentId : NodeId) (params : List (String × String)) :
    List String → Matched × List NodeData
  | [] => (finishWalk tsr fpr store path fixedLen parentId params, store)
  | segment :: rest =>
    let originalSegment := if ignoreCase then strToLower segment else segment
    match matchNodeF store parentId originalSegment with
    | none =>
      if tsr ∧ (getNode store parentId).endpoint ∧ rest = [] ∧ segment = "" then
        if fpr ∧ fixedLen > 0 then
          ({ Params := params, FPR := strDropEnd path 1 }, store)
        else ({ Params := params, TSR := strDropEnd path 1 }, store)
      else ({ Params := params }, store)
    | some childId =>
      let child := getNode store childId
      if child.name ≠ "" then
        if child.wildcard then
          (finishWalk tsr fpr store path fixedLen childId
            (setParam params child.name (joinSlash (segment :: rest))), store)
        else
          let captured :=
            if child.suffix ≠ "" then strDropEnd segment (strLen child.suffix)
            else segment
          matchLoop ignoreCase tsr fpr store path fixedLen childId
            (setParam params child.name captured) rest
      else
        matchLoop ignoreCase tsr fpr store path fixedLen childId params rest

/-- Model of `Trie.Match`, also returning the node arena after the call
(`Match` only reads it). The panic on a path not starting with `/` is the
`Except.error` case; `fixedLen` follows trie.go lines 329-333. -/
def Trie.matchRun (t : Trie) (path : String) :
    Except String Matched × List NodeData :=
  match path.data with
  | [] => (.error "path is not start with /", t.nodes)
  | c :: _ =>
    if c ≠ '/' then (.error "path is not start with /", t.nodes)
    else
      let fixedLen0 := strLen path
      let fixed := if t.fpr then fixPath path else path
      let fixedLen := if t.fpr then fixedLen0 - strLen fixed else fixedLen0
      let r := matchLoop t.ignoreCase t.tsr t.fpr t.nodes fixed fixedLen t.root []
        (splitSegs (strDrop fixed 1))
      (.ok r.1, r.2)

/-- The `Matched` result of `Trie.Match` (panic as `Except.error`). -/
def Trie.match (t : Trie) (path : String) : Except String Matched :=
  (t.matchRun path).1

/-! ## Concrete tries used by the claims -/

/-- Run a definition and keep the trie, or keep the input trie on error;
the theorems below additionally assert that the definitions succeeded. -/
def defineOk (t : Trie) (pattern : String) : Trie :=
  match t.define pattern with
  | .ok (t1, _) => t1
  | .error _ => t

/-- The precedence key encoded by the `varyLess` comparator: suffix
presence is worth 2, regex presence 1, so `varyLess a b` holds exactly when
`nodeKey b < nodeKey a` (proved below). -/
def nodeKey (a : NodeData) : Nat :=
  (if a.suffix = "" then 0 else 2) + (if a.regex.isSome then 1 else 0)

/-- A comparator ordering strictly by descending `keyf`. -/
def keyLess (keyf : α → Nat) (a b : α) : Bool := decide (keyf b < keyf a)

/-- Invariant of tries built by `define`: every entry of every `children`
map points inside the arena at a node whose `name` is empty (parameter
names are given only to `varyChildren` nodes). -/
def StaticNamesEmpty (store : List NodeData) : Prop :=
  ∀ n ∈ store, ∀ p ∈ n.children,
    p.2 < store.length ∧ (getNode store p.2).name = ""

instance (store : List NodeData) : Decidable (StaticNamesEmpty store) := by
  unfold StaticNamesEmpty
  exact inferInstance

/-- Follows the spec's words for claim C2 ("the whole captured text fully
matches the regex"): for the regex source `\d` a full match means the text
is exactly one digit. -/
def fullyMatchesBackslashD (s : String) : Bool :=
  s.data.length = 1 && s.data.all Char.isDigit

/-- The trie built with default options and no patterns. -/
def trie0 : Trie := newTrie defaultOptions

/-- Default trie with `/a/:id` defined once (claim C1). -/
def trieIdOnce : Trie := defineOk trie0 "/a/:id"

/-- Default trie with `/a/:id` defined twice (claim C1). -/
def trieIdTwice : Trie := defineOk trieIdOnce "/a/:id"

/-- Default trie with the spec's pattern `/api/:type/:ID(^\d+$)` (claim C2). -/
def trieApiRegex : Trie := defineOk trie0 "/api/:type/:ID(^\\d+$)"

/-- Default trie with pattern `/a/:id(\d)`, whose regex is unanchored
(claim C2 counterexample). -/
def trieDigit : Trie := defineOk trie0 "/a/:id(\\d)"

/-- Default trie where the wildcard `/a/:x*` is defined before the plain
named sibling `/a/:id` (claim C3 counterexample). -/
def trieWildFirst : Trie := defineOk (defineOk trie0 "/a/:x*") "/a/:id"

/-- Default trie with `/foo` defined (claim C4). -/
def trieFoo : Trie := defineOk trie0 "/foo"

/-- Default trie with `/api/foo` defined (claim C5). -/
def trieApiFoo : Trie := defineOk trie0 "/api/foo"

/-- Default trie with the catch-all pattern `/files/:filepath*` (claim C6). -/
def trieFiles : Trie := defineOk trie0 "/files/:filepath*"

/-! ## Theorems -/

/-- C1: evaluation of `Define` at the failing input. Defining `/a/:id`
twice on a fresh default trie returns node 2 the first time and a freshly
allocated node 3 the second time, and leaves two equivalent `:id` children
in `varyChildren` of the `a` node: the `check if node exists` loop of
`parseNode` ranges over the new node's own (empty) `varyChildren` instead
of the parent's, so the reuse step documented for `Define` never fires for
dynamic segments. -/
theorem define_duplicates_vary_child :
    (trie0.define "/a/:id").map Prod.snd = .ok 2 ∧
    (trieIdOnce.define "/a/:id").map Prod.snd = .ok 3 ∧
    trieIdOnce.nodes.length = 3 ∧
    trieIdTwice.nodes.length = 4 ∧
    (getNode trieIdTwice.nodes 1).varyChildren = [2, 3] ∧
    (getNode trieIdTwice.nodes 2).name = "id" ∧
    (getNode trieIdTwice.nodes 3).name = "id" := by
  exact ⟨rfl, rfl, rfl, rfl, rfl, rfl, rfl⟩

/-- C2 counterexample: with pattern `/a/:id(\d)` registered, the segment
`xy1` is accepted and captured even though the whole text does not fully
match the regex `\d` (only the substring `1` does), because `matchNode`
uses Go's unanchored `MatchString`. -/
theorem regex_substring_match_counterexample :
    (trie0.define "/a/:id(\\d)").isOk = true ∧
    (getNode trieDigit.nodes 2).regex = some "\\d" ∧
    trieDigit.match "/a/xy1" =
      .ok { Node := some 2, Params := [("id", "xy1")] } ∧
    fullyMatchesBackslashD "xy1" = false := by
  exact ⟨rfl, rfl, rfl, rfl⟩

/-- C2 amended: a regex-constrained dynamic child accepts a (suffix-
stripped) segment exactly when Go's unanchored `MatchString` accepts it,
not only on a full match; the spec's own example pattern
`/api/:type/:ID(^\d+$)` still behaves as stated because that regex is
self-anchored: `/api/user/abc` fails to match and `/api/user/123`
succeeds. -/
theorem regex_match_unanchored :
    (∀ (store : List NodeData) (seg : String) (cid : NodeId) (re : String),
      (getNode store cid).suffix = "" →
      (getNode store cid).regex = some re →
      varyAccept store seg cid = goRegexMatchString re seg) ∧
    (trie0.define "/api/:type/:ID(^\\d+$)").isOk = true ∧
    trieApiRegex.match "/api/user/abc" =
      .ok { Node := none, Params := [("type", "user")] } ∧
    trieApiRegex.match "/api/user/123" =
      .ok { Node := some 3, Params := [("type", "user"), ("ID", "123")] } := by
  refine ⟨?_, rfl, rfl, rfl⟩
  intro store seg cid re h1 h2
  simp [varyAccept, h1, h2]

/-- C2 amended, witness: the general conjunct applied at the `/a/:id(\d)`
trie and segment `xy1`. -/
theorem regex_match_unanchored_witness :
    varyAccept trieDigit.nodes "xy1" 2 = goRegexMatchString "\\d" "xy1" :=
  regex_match_unanchored.1 trieDigit.nodes "xy1" 2 "\\d" rfl rfl

/-- C3 counterexample: defining the wildcard `/a/:x*` before the plain
named sibling `/a/:id` leaves the wildcard first (not last) in
`varyChildren` — the comparator treats both as ties and the stable sort
keeps insertion order — so `Match("/a/5")` is consumed by the wildcard even
though a later unconstrained sibling exists. -/
theorem wildcard_first_counterexample :
    ((defineOk trie0 "/a/:x*").define "/a/:id").isOk = true ∧
    (getNode trieWildFirst.nodes 1).varyChildren = [2, 3] ∧
    (getNode trieWildFirst.nodes 2).wildcard = true ∧
    (getNode trieWildFirst.nodes 2).suffix = "" ∧
    (getNode trieWildFirst.nodes 2).regex = none ∧
    (getNode trieWildFirst.nodes 3).wildcard = false ∧
    trieWildFirst.match "/a/5" =
      .ok { Node := some 2, Params := [("x", "5")] } := by
  exact ⟨rfl, rfl, rfl, rfl, rfl, rfl, rfl⟩

/-- C7: `Match` fails fatally (modelled as `Except.error`) exactly when the
path is empty or does not begin with `/`; for every path beginning with
`/`, on any trie, it returns a `Matched` result. -/
theorem match_panics_iff_bad_path (t : Trie) (p : String) :
    (∃ m, t.match p = .ok m) ↔ ¬ (p = "" ∨ p.data.head? ≠ some '/') := by
  unfold Trie.match Trie.matchRun
  split
  · rename_i heq
    have hp0 : p = "" := by
      cases p
      simp only [String.data] at heq
      simp [heq]
    simp [hp0]
  · rename_i c cs heq
    have hpne : p ≠ "" := by
      intro h
      rw [h] at heq
      simp at heq
    by_cases hc : c = '/'
    · simp [hc, heq, hpne]
    · simp [hc, heq, hpne]

/-- Auxiliary to C8: the walk loop returns the node arena it was given at
every exit. -/
theorem matchLoop_snd (ic tsr fpr : Bool) (store : List NodeData) (path : String)
    (fixedLen : Nat) :
    ∀ (segs : List String) (pid : NodeId) (params : List (String × String)),
      (matchLoop ic tsr fpr store path fixedLen pid params segs).2 = store := by
  intro segs
  induction segs with
  | nil => intro pid params; rfl
  | cons seg rest ih =>
    intro pid params
    simp only [matchLoop]
    cases hm : matchNodeF store pid (if ic = true then strToLower seg else seg) with
    | none =>
      simp only [hm]
      split
      · split <;> rfl
      · rfl
    | some childId =>
      simp only [hm]
      split_ifs with h1 h2 <;> first | rfl | exact ih _ _

/-- C8: `Match` never mutates the trie — the arena returned by the
store-threaded run equals the input arena — and the result is a function of
the pair (trie, path) alone. -/
theorem match_preserves_trie :
    (∀ (t : Trie) (p : String), (t.matchRun p).2 = t.nodes) ∧
    (∀ (t1 t2 : Trie) (p1 p2 : String), t1 = t2 → p1 = p2 →
      t1.match p1 = t2.match p2) := by
  constructor
  · intro t p
    unfold Trie.matchRun
    split
    · rfl
    · split
      · rfl
      · exact matchLoop_snd _ _ _ _ _ _ _ _ _
  · rintro t1 t2 p1 p2 rfl rfl
    rfl

/-- C8 witness: the frame and determinism statements applied at the `/foo`
trie and the path `/foo/`. -/
theorem match_preserves_trie_witness :
    (trieFoo.matchRun "/foo/").2 = trieFoo.nodes ∧
    trieFoo.match "/foo/" = trieFoo.match "/foo/" :=
  ⟨match_preserves_trie.1 trieFoo "/foo/",
   match_preserves_trie.2 trieFoo trieFoo "/foo/" "/foo/" rfl rfl⟩

/-- Auxiliary to C9: the final switch populates at most one of `Node`,
`TSR`, `FPR`. -/
theorem finishWalk_outcome (tsr fpr : Bool) (store : List NodeData) (path : String)
    (fixedLen : Nat) (pid : NodeId) (params : List (String × String)) :
    ((finishWalk tsr fpr store path fixedLen pid params).Node ≠ none →
      (finishWalk tsr fpr store path fixedLen pid params).TSR = "" ∧
      (finishWalk tsr fpr store path fixedLen pid params).FPR = "") ∧
    ((finishWalk tsr fpr store path fixedLen pid params).TSR = "" ∨
      (finishWalk tsr fpr store path fixedLen pid params).FPR = "") := by
  unfold finishWalk
  by_cases h : (getNode store pid).endpoint = true <;>
    simp only [h, if_true, if_false, Bool.false_eq_true] <;>
      split_ifs <;> simp

/-- Auxiliary to C9: every exit of the walk loop populates at most one of
`Node`, `TSR`, `FPR`. -/
theorem matchLoop_outcome (ic tsr fpr : Bool) (store : List NodeData) (path : String)
    (fixedLen : Nat) :
    ∀ (segs : List String) (pid : NodeId) (params : List (String × String)),
      (((matchLoop ic tsr fpr store path fixedLen pid params segs).1.Node ≠ none →
        (matchLoop ic tsr fpr store path fixedLen pid params segs).1.TSR = "" ∧
        (matchLoop ic tsr fpr store path fixedLen pid params segs).1.FPR = "") ∧
       ((matchLoop ic tsr fpr store path fixedLen pid params segs).1.TSR = "" ∨
        (matchLoop ic tsr fpr store path fixedLen pid params segs).1.FPR = "")) := by
  intro segs
  induction segs with
  | nil =>
    intro pid params
    exact finishWalk_outcome tsr fpr store path fixedLen pid params
  | cons seg rest ih =>
    intro pid params
    simp only [matchLoop]
    cases hm : matchNodeF store pid (if ic = true then strToLower seg else seg) with
    | none =>
      simp only [hm]
      split
      · split <;> simp
      · simp
    | some childId =>
      simp only [hm]
      split_ifs with h1 h2 <;>
        first
        | exact finishWalk_outcome tsr fpr store path fixedLen childId _
        | exact ih _ _

/-- C9: any `Matched` value returned by `Match` has at most one of its
three outcome fields populated: a non-nil `Node` forces both redirect
fields empty, and `TSR` and `FPR` are never both non-empty. -/
theorem matched_at_most_one_outcome (t : Trie) (p : String) (m : Matched)
    (h : t.match p = .ok m) :
    (m.Node ≠ none → m.TSR = "" ∧ m.FPR = "") ∧ (m.TSR = "" ∨ m.FPR = "") := by
  unfold Trie.match Trie.matchRun at h
  revert h
  split
  · intro h
    simp at h
  · split
    · intro h
      simp at h
    · intro h
      simp only [Except.ok.injEq] at h
      subst h
      exact matchLoop_outcome _ _ _ _ _ _ _ _ _

/-- C9 witness: the theorem applied to the `/files/:filepath*` trie at
`/files/a/b/c`. -/
theorem matched_at_most_one_outcome_witness :
    ((some 2 : Option NodeId) ≠ none →
      ({ Node := some 2, Params := [("filepath", "a/b/c")] } : Matched).TSR = "" ∧
      ({ Node := some 2, Params := [("filepath", "a/b/c")] } : Matched).FPR = "") ∧
    (({ Node := some 2, Params := [("filepath", "a/b/c")] } : Matched).TSR = "" ∨
      ({ Node := some 2, Params := [("filepath", "a/b/c")] } : Matched).FPR = "") :=
  matched_at_most_one_outcome trieFiles "/files/a/b/c"
    { Node := some 2, Params := [("filepath", "a/b/c")] } rfl

/-- C4: trailing-slash redirection. When the walk fails on the final empty
segment under an endpoint parent, the result has no node and `TSR` is the
path with its trailing slash removed (`FPR` instead when fixed-path
redirection already altered the path); when the walk ends on a non-endpoint
node owning a literal empty-segment child, `TSR` is the path plus a slash
(`FPR` likewise); and with `/foo` registered on a default trie,
`Match("/foo/")` returns no node and `TSR = "/foo"`. -/
theorem trailing_slash_redirect :
    (∀ (ic fpr : Bool) (store : List NodeData) (path : String) (fixedLen : Nat)
      (pid : NodeId) (params : List (String × String)),
      (getNode store pid).endpoint = true →
      matchNodeF store pid "" = none →
      ¬ (fpr = true ∧ 0 < fixedLen) →
      (matchLoop ic true fpr store path fixedLen pid params [""]).1 =
        { Params := params, TSR := strDropEnd path 1 }) ∧
    (∀ (ic : Bool) (store : List NodeData) (path : String) (fixedLen : Nat)
      (pid : NodeId) (params : List (String × String)),
      (getNode store pid).endpoint = true →
      matchNodeF store pid "" = none →
      0 < fixedLen →
      (matchLoop ic true true store path fixedLen pid params [""]).1 =
        { Params := params, FPR := strDropEnd path 1 }) ∧
    (∀ (fpr : Bool) (store : List NodeData) (path : String) (fixedLen : Nat)
      (pid : NodeId) (params : List (String × String)),
      (getNode store pid).endpoint = false →
      (getChild store pid "").isSome →
      ¬ (fpr = true ∧ 0 < fixedLen) →
      finishWalk true fpr store path fixedLen pid params =
        { Params := params, TSR := path ++ "/" }) ∧
    (∀ (store : List NodeData) (path : String) (fixedLen : Nat)
      (pid : NodeId) (params : List (String × String)),
      (getNode store pid).endpoint = false →
      (getChild store pid "").isSome →
      0 < fixedLen →
      finishWalk true true store path fixedLen pid params =
        { Params := params, FPR := path ++ "/" }) ∧
    (trie0.define "/foo").isOk = true ∧
    trieFoo.match "/foo/" = .ok { Node := none, TSR := "/foo" } := by
  refine ⟨?_, ?_, ?_, ?_, rfl, rfl⟩
  · intro ic fpr store path fixedLen pid params hend hnone hnofpr
    have hos : (if ic = true then strToLower "" else "") = "" := by cases ic <;> rfl
    simp only [matchLoop, hos, hnone, hend]
    simp [hnofpr]
  · intro ic store path fixedLen pid params hend hnone hlen
    have hos : (if ic = true then strToLower "" else "") = "" := by cases ic <;> rfl
    simp only [matchLoop, hos, hnone, hend]
    simp [hlen]
  · intro fpr store path fixedLen pid params hend hchild hnofpr
    unfold finishWalk
    simp [hend, hchild, hnofpr]
  · intro store path fixedLen pid params hend hchild hlen
    unfold finishWalk
    simp [hend, hchild, hlen]

/-- C4 witness: all four general conjuncts applied at the `/foo` trie
(endpoint node 1, arena of `trieFoo`), and a non-endpoint parent with a
literal empty-segment child built from `/bar/` to exercise the other
branch. -/
theorem trailing_slash_redirect_witness :
    (matchLoop true true true trieFoo.nodes "/foo/" 0 1 [] [""]).1 =
      { Params := [], TSR := strDropEnd "/foo/" 1 } ∧
    (matchLoop true true true trieFoo.nodes "/foo/" 1 1 [] [""]).1 =
      { Params := [], FPR := strDropEnd "/foo/" 1 } ∧
    finishWalk true false (defineOk trie0 "/bar/").nodes "/bar" 0 1 [] =
      { Params := [], TSR := "/bar" ++ "/" } ∧
    finishWalk true true (defineOk trie0 "/bar/").nodes "/bar" 1 1 [] =
      { Params := [], FPR := "/bar" ++ "/" } :=
  ⟨trailing_slash_redirect.1 true true trieFoo.nodes "/foo/" 0 1 [] rfl rfl
      (by simp),
   trailing_slash_redirect.2.1 true trieFoo.nodes "/foo/" 1 1 [] rfl rfl
      (by simp),
   trailing_slash_redirect.2.2.1 false (defineOk trie0 "/bar/").nodes "/bar" 0 1 []
      rfl rfl (by simp),
   trailing_slash_redirect.2.2.2.1 (defineOk trie0 "/bar/").nodes "/bar" 1 1 []
      rfl rfl (by simp)⟩

/-- One-step unfolding of `collapseSlashes` on two explicit heads. -/
theorem collapseSlashes_cons2 (c d : Char) (rest : List Char) :
    collapseSlashes (c :: d :: rest) =
      if c = '/' && d = '/' then collapseSlashes (d :: rest)
      else c :: collapseSlashes (d :: rest) := rfl

/-- One-step unfolding of `hasDoubleSlash` on two explicit heads. -/
theorem hasDoubleSlash_cons2 (c d : Char) (rest : List Char) :
    hasDoubleSlash (c :: d :: rest) =
      ((c = '/' && d = '/') || hasDoubleSlash (d :: rest)) := rfl

/-- Collapsing preserves the head character. -/
theorem collapse_head (c : Char) (t : List Char) :
    ∃ u, collapseSlashes (c :: t) = c :: u := by
  induction t generalizing c with
  | nil => exact ⟨[], rfl⟩
  | cons d t ih =>
    rw [collapseSlashes_cons2]
    cases h : (c = '/' && d = '/') with
    | true =>
      obtain ⟨hc, hd⟩ : c = '/' ∧ d = '/' := by simpa using h
      obtain ⟨u, hu⟩ := ih d
      refine ⟨u, ?_⟩
      rw [if_pos rfl, hu, hc, hd]
    | false =>
      refine ⟨collapseSlashes (d :: t), ?_⟩
      rw [if_neg (by simp)]

/-- The collapsed path contains no two consecutive slashes. -/
theorem collapse_no_double : ∀ l : List Char, hasDoubleSlash (collapseSlashes l) = false := by
  intro l
  induction l with
  | nil => rfl
  | cons c rest ih =>
    cases rest with
    | nil => rfl
    | cons d t =>
      rw [collapseSlashes_cons2]
      cases h : (c = '/' && d = '/') with
      | true => rw [if_pos rfl]; exact ih
      | false =>
        rw [if_neg (by simp)]
        obtain ⟨u, hu⟩ := collapse_head d t
        rw [hu, hasDoubleSlash_cons2, ← hu, ih, h]
        rfl

/-- Collapsing is the identity on paths with no consecutive slashes. -/
theorem collapse_id : ∀ l : List Char, hasDoubleSlash l = false → collapseSlashes l = l := by
  intro l
  induction l with
  | nil => intro _; rfl
  | cons c rest ih =>
    cases rest with
    | nil => intro _; rfl
    | cons d t =>
      intro hl
      rw [hasDoubleSlash_cons2] at hl
      have h1 : (c = '/' && d = '/') = false := by
        cases hx : (c = '/' && d = '/') <;> simp [hx] at hl ⊢
      have h2 : hasDoubleSlash (d :: t) = false := by
        cases hx : hasDoubleSlash (d :: t) <;> simp [hx] at hl ⊢
      rw [collapseSlashes_cons2, if_neg (by simp [h1]), ih h2]

/-- `fixPath` computes exactly the slash-collapsed path. -/
theorem fixPath_data (p : String) : (fixPath p).data = collapseSlashes p.data := by
  unfold fixPath
  by_cases h : hasDoubleSlash p.data = true
  · rw [if_pos h]
  · rw [if_neg h]
    have hfalse : hasDoubleSlash p.data = false := by
      cases hx : hasDoubleSlash p.data
      · rfl
      · exact absurd hx h
    rw [collapse_id p.data hfalse]

/-- C5: fixed-path redirection. `Match` walks the slash-collapsed path
(`fixPath` collapses every run of consecutive slashes and is the identity
exactly on already-clean paths), and when the path was changed and the walk
reaches an endpoint the corrected path is returned in `FPR` with no node;
with `/api/foo` registered on a default trie, `Match("/api//foo")` returns
`FPR = "/api/foo"` and no node. -/
theorem fixed_path_redirect :
    (∀ p : String, (fixPath p).data = collapseSlashes p.data) ∧
    (∀ p : String, hasDoubleSlash (fixPath p).data = false) ∧
    (∀ p : String, hasDoubleSlash p.data = false → fixPath p = p) ∧
    (∀ (tsr : Bool) (store : List NodeData) (path : String) (fixedLen : Nat)
      (pid : NodeId) (params : List (String × String)),
      (getNode store pid).endpoint = true →
      0 < fixedLen →
      finishWalk tsr true store path fixedLen pid params =
        { Params := params, FPR := path }) ∧
    (trie0.define "/api/foo").isOk = true ∧
    trieApiFoo.match "/api//foo" = .ok { Node := none, FPR := "/api/foo" } := by
  refine ⟨fixPath_data, ?_, ?_, ?_, rfl, rfl⟩
  · intro p
    rw [fixPath_data]
    exact collapse_no_double _
  · intro p h
    unfold fixPath
    rw [if_neg (by simp [h])]
  · intro tsr store path fixedLen pid params hend hlen
    unfold finishWalk
    simp [hend, hlen]

/-- C5 witness: the general conjuncts applied at concrete inputs, with the
endpoint clause at node 2 of the `/api/foo` trie. -/
theorem fixed_path_redirect_witness :
    (fixPath "/api//foo").data = collapseSlashes "/api//foo".data ∧
    hasDoubleSlash (fixPath "/api//foo").data = false ∧
    fixPath "/api/foo" = "/api/foo" ∧
    finishWalk true true trieApiFoo.nodes "/api/foo" 1 2 [] =
      { Params := [], FPR := "/api/foo" } :=
  ⟨fixed_path_redirect.1 "/api//foo",
   fixed_path_redirect.2.1 "/api//foo",
   fixed_path_redirect.2.2.1 "/api/foo" (by decide),
   fixed_path_redirect.2.2.2.1 true trieApiFoo.nodes "/api/foo" 1 2 [] rfl
     (by decide)⟩

/-- C6: a matched named wildcard consumes the entire remainder of the path
(all remaining segments joined back with `/`) as its parameter value and
terminates the walk immediately at the wildcard node; with
`/files/:filepath*` registered, `Match("/files/a/b/c")` yields
`Params["filepath"] = "a/b/c"`. -/
theorem wildcard_consumes_remainder :
    (∀ (ic tsr fpr : Bool) (store : List NodeData) (path : String)
      (fixedLen : Nat) (pid : NodeId) (params : List (String × String))
      (seg : String) (rest : List String) (cid : NodeId),
      matchNodeF store pid (if ic = true then strToLower seg else seg) = some cid →
      (getNode store cid).name ≠ "" →
      (getNode store cid).wildcard = true →
      (matchLoop ic tsr fpr store path fixedLen pid params (seg :: rest)).1 =
        finishWalk tsr fpr store path fixedLen cid
          (setParam params (getNode store cid).name (joinSlash (seg :: rest)))) ∧
    (trie0.define "/files/:filepath*").isOk = true ∧
    trieFiles.match "/files/a/b/c" =
      .ok { Node := some 2, Params := [("filepath", "a/b/c")] } := by
  refine ⟨?_, rfl, rfl⟩
  intro ic tsr fpr store path fixedLen pid params seg rest cid hm hname hwild
  simp only [matchLoop, hm]
  rw [if_pos hname, if_pos hwild]

/-- C6 witness: the general conjunct applied at the `/files/:filepath*`
trie with segments `a`, `b`, `c`. -/
theorem wildcard_consumes_remainder_witness :
    (matchLoop true true true trieFiles.nodes "/files/a/b/c" 0 1 [] ["a", "b", "c"]).1 =
      finishWalk true true trieFiles.nodes "/files/a/b/c" 0 2
        (setParam [] (getNode trieFiles.nodes 2).name (joinSlash ["a", "b", "c"])) :=
  wildcard_consumes_remainder.1 true true true trieFiles.nodes "/files/a/b/c" 0 1 []
    "a" ["b", "c"] 2 rfl (by decide) rfl

/-- The `varyLess` comparator is exactly the strict descending order on
`nodeKey` (suffix presence counts 2, regex presence 1). -/
theorem varyLess_eq_keyLess (a b : NodeData) : varyLess a b = keyLess nodeKey a b := by
  unfold varyLess keyLess nodeKey
  by_cases h1 : a.suffix = "" <;> by_cases h2 : b.suffix = "" <;>
    cases ha : a.regex <;> cases hb : b.regex <;>
      simp [h1, h2, ha, hb]

/-- The id-level comparator used in `addVary` is the descending key order
through the arena. -/
theorem varyLessId_eq (store : List NodeData) :
    varyLessId store = keyLess (fun i => nodeKey (getNode store i)) := by
  funext i j
  unfold varyLessId
  rw [varyLess_eq_keyLess]
  rfl

/-- Membership in the insertion step of the stable sort. -/
theorem mem_orderedIns (less : α → α → Bool) (x : α) :
    ∀ (l : List α) (a : α), a ∈ orderedIns less x l ↔ a = x ∨ a ∈ l := by
  intro l
  induction l with
  | nil => intro a; simp [orderedIns]
  | cons y ys ih =>
    intro a
    unfold orderedIns
    split
    · simp only [List.mem_cons, ih]
      tauto
    · simp only [List.mem_cons]

/-- Inserting into a descending-key-sorted list keeps it sorted. -/
theorem orderedIns_pairwise (keyf : α → Nat) (x : α) :
    ∀ l : List α, l.Pairwise (fun a b => keyf b ≤ keyf a) →
      (orderedIns (keyLess keyf) x l).Pairwise (fun a b => keyf b ≤ keyf a) := by
  intro l
  induction l with
  | nil => intro _; simp [orderedIns]
  | cons y ys ih =>
    intro hp
    rw [List.pairwise_cons] at hp
    obtain ⟨hy, hys⟩ := hp
    unfold orderedIns
    split
    · rename_i h
      rw [List.pairwise_cons]
      refine ⟨?_, ih hys⟩
      intro a ha
      rw [mem_orderedIns] at ha
      cases ha with
      | inl h' =>
        subst h'
        exact le_of_lt (of_decide_eq_true h)
      | inr h' => exact hy a h'
    · rename_i h
      have hyx : keyf y ≤ keyf x := Nat.le_of_not_lt (by simpa [keyLess] using h)
      rw [List.pairwise_cons]
      refine ⟨?_, List.Pairwise.cons hy hys⟩
      intro a ha
      cases List.mem_cons.mp ha with
      | inl h' => subst h'; exact hyx
      | inr h' => exact le_trans (hy a h') hyx

/-- The stable sort orders by descending key. -/
theorem sliceStable_pairwise (keyf : α → Nat) :
    ∀ l : List α, (sliceStable (keyLess keyf) l).Pairwise
      (fun a b => keyf b ≤ keyf a) := by
  intro l
  induction l with
  | nil => simp [sliceStable]
  | cons x xs ih => exact orderedIns_pairwise keyf x _ ih

/-- Stability of the insertion step: elements of any fixed key keep their
relative order (the inserted element stays behind none of its ties). -/
theorem orderedIns_filter (keyf : α → Nat) (x : α) (k : Nat) :
    ∀ l : List α, (orderedIns (keyLess keyf) x l).filter (fun a => keyf a == k) =
      ((x :: l).filter (fun a => keyf a == k)) := by
  intro l
  induction l with
  | nil => rfl
  | cons y ys ih =>
    unfold orderedIns
    split
    · rename_i h
      have hlt : keyf x < keyf y := of_decide_eq_true h
      simp only [List.filter_cons]
      by_cases hx : (keyf x == k) = true <;> by_cases hy' : (keyf y == k) = true
      · exfalso
        have ex : keyf x = k := by simpa using hx
        have ey : keyf y = k := by simpa using hy'
        omega
      · simp only [hx, hy', if_true, if_false, Bool.false_eq_true]
        rw [ih]
        simp [List.filter_cons, hx, hy']
      · simp only [hx, hy', if_true, if_false, Bool.false_eq_true]
        rw [ih]
        simp [List.filter_cons, hx, hy']
      · simp only [hx, hy', if_false, Bool.false_eq_true]
        rw [ih]
        simp [List.filter_cons, hx, hy']
    · rfl

/-- Stability of the stable sort: for every key value, the subsequence of
elements with that key is unchanged — all comparator ties (in particular
all unconstrained children, wildcards included) preserve insertion order. -/
theorem sliceStable_filter (keyf : α → Nat) (k : Nat) :
    ∀ l : List α, (sliceStable (keyLess keyf) l).filter (fun a => keyf a == k) =
      l.filter (fun a => keyf a == k) := by
  intro l
  induction l with
  | nil => rfl
  | cons x xs ih =>
    unfold sliceStable
    rw [orderedIns_filter]
    simp only [List.filter_cons, ih]

/-- In a descending-key-sorted list, `find?` never returns an element of
strictly smaller key than some satisfying element. -/
theorem find?_not_small (keyf : α → Nat) (p : α → Bool) (w : α) :
    ∀ (l : List α) (c : α), l.Pairwise (fun a b => keyf b ≤ keyf a) → c ∈ l →
      p c = true → keyf w < keyf c → l.find? p ≠ some w := by
  intro l
  induction l with
  | nil => intro c _ hc; simp at hc
  | cons x xs ih =>
    intro c hp hc hpc hk
    rw [List.pairwise_cons] at hp
    obtain ⟨hx, hxs⟩ := hp
    cases hpx : p x with
    | true =>
      rw [List.find?_cons_of_pos _ hpx]
      intro heq
      have hxw : x = w := by simpa using heq
      subst hxw
      cases List.mem_cons.mp hc with
      | inl h' => subst h'; exact absurd hk (lt_irrefl _)
      | inr h' => exact absurd (hx c h') (not_le.mpr hk)
    | false =>
      rw [List.find?_cons_of_neg _ (by simp [hpx])]
      cases List.mem_cons.mp hc with
      | inl h' => subst h'; rw [hpx] at hpc; cases hpc
      | inr h' => exact ih c hxs h' hpc hk

/-- Reading back the node updated by `setNode`. -/
theorem getNode_setNode_self (store : List NodeData) (i : NodeId) (d : NodeData) :
    getNode (setNode store i d) i = if i < store.length then d else getNode store i := by
  unfold getNode setNode
  by_cases h : i < store.length
  · rw [if_pos h]
    rw [List.getD_eq_getElem?_getD, List.getElem?_set_self]
    · rfl
    · exact h
  · rw [if_neg h, List.set_eq_of_length_le (Nat.le_of_not_lt h)]

/-- C3 amended: the comparator is exactly the descending (suffix, regex)
key order; after every insertion (`addVary`) the `varyChildren` list is
sorted by that policy; the stable re-sort preserves insertion order within
every tie class; and in a policy-sorted list a segment accepted by a
regex-constrained child is never resolved to a plain wildcard child
(suffix-free, regex-free). A wildcard is only guaranteed to come after
constrained siblings: among unconstrained siblings insertion order decides,
so a wildcard inserted before a plain named sibling is tried first (see the
counterexample). -/
theorem vary_order_policy :
    (∀ a b : NodeData, varyLess a b = keyLess nodeKey a b) ∧
    (∀ (store : List NodeData) (parentId nodeId : NodeId),
      ((getNode (addVary store parentId nodeId) parentId).varyChildren).Pairwise
        (fun i j => nodeKey (getNode store j) ≤ nodeKey (getNode store i))) ∧
    (∀ (store : List NodeData) (l : List NodeId) (k : Nat),
      (sliceStable (varyLessId store) l).filter
          (fun i => nodeKey (getNode store i) == k) =
        l.filter (fun i => nodeKey (getNode store i) == k)) ∧
    (∀ (store : List NodeData) (seg : String) (vcs : List NodeId) (cid wid : NodeId),
      vcs.Pairwise (fun i j => nodeKey (getNode store j) ≤ nodeKey (getNode store i)) →
      cid ∈ vcs →
      varyAccept store seg cid = true →
      (getNode store cid).regex.isSome →
      (getNode store wid).suffix = "" →
      (getNode store wid).regex = none →
      vcs.find? (varyAccept store seg) ≠ some wid) := by
  refine ⟨varyLess_eq_keyLess, ?_, ?_, ?_⟩
  · intro store parentId nodeId
    unfold addVary
    by_cases hp : parentId < store.length
    · rw [getNode_setNode_self, if_pos hp]
      split
      · rw [varyLessId_eq]
        exact sliceStable_pairwise _ _
      · rename_i hlen
        have h0 : (getNode store parentId).varyChildren = [] := by
          have : ((getNode store parentId).varyChildren ++ [nodeId]).length ≤ 1 :=
            Nat.le_of_not_lt hlen
          simp only [List.length_append, List.length_singleton] at this
          have : (getNode store parentId).varyChildren.length = 0 := by omega
          exact List.eq_nil_of_length_eq_zero this
        rw [h0]
        simp
    · rw [getNode_setNode_self, if_neg hp]
      have h0 : getNode store parentId = {} := by
        unfold getNode
        exact List.getD_eq_default _ _ (Nat.le_of_not_lt hp)
      rw [h0]
      simp
  · intro store l k
    rw [varyLessId_eq]
    exact sliceStable_filter _ k l
  · intro store seg vcs cid wid hp hmem hacc hregex hwsfx hwregex
    apply find?_not_small (fun i => nodeKey (getNode store i))
      (varyAccept store seg) wid vcs cid hp hmem hacc
    by_cases hcs : (getNode store cid).suffix = "" <;>
      simp [nodeKey, hcs, hwsfx, hwregex, hregex]

/-- C3 amended, witness: the sortedness statement at the wildcard-first
trie's `a` node, the stability statement on its vary list, and the
no-fall-through statement at the `/a/:id(\d)` trie (regex child 2 accepts
`7`, so `find?` does not return the plain root node 0). -/
theorem vary_order_policy_witness :
    varyLess {} {} = keyLess nodeKey {} {} ∧
    ((getNode (addVary trieWildFirst.nodes 1 3) 1).varyChildren).Pairwise
      (fun i j => nodeKey (getNode trieWildFirst.nodes j) ≤
        nodeKey (getNode trieWildFirst.nodes i)) ∧
    (sliceStable (varyLessId trieDigit.nodes) [2]).filter
        (fun i => nodeKey (getNode trieDigit.nodes i) == 1) =
      [2].filter (fun i => nodeKey (getNode trieDigit.nodes i) == 1) ∧
    [2].find? (varyAccept trieDigit.nodes "7") ≠ some 0 :=
  ⟨vary_order_policy.1 {} {},
   vary_order_policy.2.1 trieWildFirst.nodes 1 3,
   vary_order_policy.2.2.1 trieDigit.nodes [2] 1,
   vary_order_policy.2.2.2 trieDigit.nodes "7" [2] 2 0 (by simp)
     (by simp) (by decide) (by decide) (by decide) (by decide)⟩

/-- Out-of-range arena reads give the default node. -/
theorem getNode_oob (store : List NodeData) (i : NodeId) (h : store.length ≤ i) :
    getNode store i = {} := by
  unfold getNode
  exact List.getD_eq_default _ _ h

/-- In-range arena reads are members of the arena. -/
theorem getNode_mem (store : List NodeData) (i : NodeId) (h : i < store.length) :
    getNode store i ∈ store := by
  unfold getNode
  rw [List.getD_eq_getElem?_getD, List.getElem?_eq_getElem h]
  exact List.getElem_mem h

/-- Appending nodes does not change in-range reads. -/
theorem getNode_append_lt (store l : List NodeData) (i : NodeId)
    (h : i < store.length) : getNode (store ++ l) i = getNode store i := by
  unfold getNode
  exact List.getD_append _ _ _ _ h

/-- Reading the just-appended node. -/
theorem getNode_append_eq (store : List NodeData) (node : NodeData) :
    getNode (store ++ [node]) store.length = node := by
  unfold getNode
  rw [List.getD_append_right _ _ _ _ (le_refl _)]
  simp

/-- Writing one slot does not change the others. -/
theorem getNode_setNode_ne (store : List NodeData) (i j : NodeId) (d : NodeData)
    (h : i ≠ j) : getNode (setNode store j d) i = getNode store i := by
  unfold getNode setNode
  rw [List.getD_eq_getElem?_getD, List.getD_eq_getElem?_getD,
    List.getElem?_set_ne (Ne.symm h)]

/-- `setNode` keeps the arena length. -/
theorem length_setNode (store : List NodeData) (j : NodeId) (d : NodeData) :
    (setNode store j d).length = store.length := by
  unfold setNode
  exact List.length_set _ _ _

/-- A write that keeps a slot's `name` keeps every slot's `name`. -/
theorem nameAt_setNode (store : List NodeData) (j : NodeId) (d : NodeData)
    (hn : d.name = (getNode store j).name) (i : NodeId) :
    (getNode (setNode store j d) i).name = (getNode store i).name := by
  by_cases hij : i = j
  · subst hij
    rw [getNode_setNode_self]
    split
    · exact hn
    · rfl
  · rw [getNode_setNode_ne _ _ _ _ hij]

/-- Membership after a map-style insert into an association list. -/
theorem mem_setAssoc (m : List (String × NodeId)) (k : String) (v : NodeId)
    (p : String × NodeId) (hp : p ∈ setAssoc m k v) : p ∈ m ∨ p = (k, v) := by
  unfold setAssoc at hp
  split at hp
  · rw [List.mem_map] at hp
    obtain ⟨q, hq, hqe⟩ := hp
    by_cases hqk : q.1 = k
    · right
      rw [← hqe]
      simp [hqk]
    · left
      rw [← hqe]
      simp [hqk]
      exact hq
  · rw [List.mem_append] at hp
    cases hp with
    | inl h => exact Or.inl h
    | inr h => right; simpa using h

/-- The invariant survives a write that keeps a slot's `name` and
`children`. -/
theorem staticNE_setNode (store : List NodeData) (j : NodeId) (d : NodeData)
    (h : StaticNamesEmpty store)
    (hn : d.name = (getNode store j).name)
    (hc : d.children = (getNode store j).children) :
    StaticNamesEmpty (setNode store j d) := by
  intro n hmem p hp
  have hlen := length_setNode store j d
  have lift : p.2 < store.length ∧ (getNode store p.2).name = "" →
      p.2 < (setNode store j d).length ∧
        (getNode (setNode store j d) p.2).name = "" := by
    rintro ⟨hb, hm⟩
    exact ⟨by rw [length_setNode]; exact hb, by rw [nameAt_setNode _ _ _ hn]; exact hm⟩
  cases List.mem_or_eq_of_mem_set hmem with
  | inl hmem' => exact lift (h n hmem' p hp)
  | inr hd =>
    subst hd
    rw [hc] at hp
    by_cases hj : j < store.length
    · exact lift (h _ (getNode_mem store j hj) p hp)
    · rw [getNode_oob store j (Nat.le_of_not_lt hj)] at hp
      simp at hp

/-- The invariant survives appending a node with no static children. -/
theorem staticNE_append (store : List NodeData) (node : NodeData)
    (h : StaticNamesEmpty store) (hchildren : node.children = []) :
    StaticNamesEmpty (store ++ [node]) := by
  intro n hmem p hp
  rw [List.mem_append] at hmem
  cases hmem with
  | inl hmem' =>
    obtain ⟨hb, hm⟩ := h n hmem' p hp
    have hlen2 : (store ++ [node]).length = store.length + 1 := by simp
    refine ⟨by rw [hlen2]; exact Nat.lt_succ_of_lt hb, ?_⟩
    rw [getNode_append_lt store _ _ hb]
    exact hm
  | inr hmem' =>
    have : n = node := by simpa using hmem'
    subst this
    rw [hchildren] at hp
    simp at hp

/-- The invariant survives `addChild` for a fresh unnamed childless node. -/
theorem staticNE_addChild (store : List NodeData) (pid : NodeId) (key : String)
    (node : NodeData) (h : StaticNamesEmpty store)
    (hname : node.name = "") (hchildren : node.children = []) :
    StaticNamesEmpty (addChild store pid key node) := by
  unfold addChild
  have h1 : StaticNamesEmpty (store ++ [node]) := staticNE_append store node h hchildren
  intro n hmem p hp
  have hd : ({ getNode (store ++ [node]) pid with
      children := setAssoc (getNode (store ++ [node]) pid).children key store.length }).name
      = (getNode (store ++ [node]) pid).name := rfl
  have lift : p.2 < (store ++ [node]).length ∧ (getNode (store ++ [node]) p.2).name = "" →
      p.2 < (setNode (store ++ [node]) pid
          { getNode (store ++ [node]) pid with
            children := setAssoc (getNode (store ++ [node]) pid).children key
              store.length }).length ∧
        (getNode (setNode (store ++ [node]) pid
          { getNode (store ++ [node]) pid with
            children := setAssoc (getNode (store ++ [node]) pid).children key
              store.length }) p.2).name = "" := by
    rintro ⟨hb, hm⟩
    rw [length_setNode]
    exact ⟨hb, by rw [nameAt_setNode _ _ _ hd]; exact hm⟩
  cases List.mem_or_eq_of_mem_set hmem with
  | inl hmem' => exact lift (h1 n hmem' p hp)
  | inr hd' =>
    subst hd'
    simp only at hp
    cases mem_setAssoc _ _ _ p hp with
    | inl hold =>
      by_cases hpid : pid < (store ++ [node]).length
      · exact lift (h1 _ (getNode_mem _ pid hpid) p hold)
      · rw [getNode_oob _ pid (Nat.le_of_not_lt hpid)] at hold
        simp at hold
    | inr hkv =>
      subst hkv
      apply lift
      constructor
      · simp
      · rw [getNode_append_eq]
        exact hname

/-- The invariant survives `addVary` (only `varyChildren` changes). -/
theorem staticNE_addVary (store : List NodeData) (pid nid : NodeId)
    (h : StaticNamesEmpty store) : StaticNamesEmpty (addVary store pid nid) := by
  unfold addVary
  exact staticNE_setNode _ _ _ h rfl rfl

/-- `regexStep` only ever sets the `regex` field. -/
theorem regexStep_shape (name : String) (node : NodeData) :
    ∀ r, regexStep name node = .ok r →
      r.2.children = node.children ∧ r.2.varyChildren = node.varyChildren := by
  intro r h
  simp only [regexStep] at h
  split at h
  · exact Except.noConfusion h
  · split at h
    · split at h
      · split at h
        · split at h
          · injection h with h'
            subst h'
            exact ⟨rfl, rfl⟩
          · exact Except.noConfusion h
        · injection h with h'
          subst h'
          exact ⟨rfl, rfl⟩
      · injection h with h'
        subst h'
        exact ⟨rfl, rfl⟩
    · injection h with h'
      subst h'
      exact ⟨rfl, rfl⟩

/-- The invariant survives the dynamic-segment branch of `parseNode`. -/
theorem staticNE_parseVary (store : List NodeData) (pid nid : NodeId)
    (node : NodeData) (name0 : String) (h : StaticNamesEmpty store)
    (hch : node.children = []) :
    ∀ r, parseVary store pid nid node name0 = .ok r → StaticNamesEmpty r.1 := by
  intro r hh
  simp only [parseVary] at hh
  split at hh
  · exact Except.noConfusion hh
  · split at hh
    · exact Except.noConfusion hh
    · rename_i name node1 heq
      have hstep : node1.children = node.children := by
        split at heq
        · injection heq with h'
          injection h' with h1 h2
          rw [← h2]
        · split at heq
          · split at heq
            · exact Except.noConfusion heq
            · exact (regexStep_shape _ _ (name, node1) heq).1
          · exact (regexStep_shape _ _ (name, node1) heq).1
      split at hh
      · exact Except.noConfusion hh
      · split at hh
        · exact Except.noConfusion hh
        · injection hh with h'
          rw [← h']
          exact h
        · injection hh with h'
          rw [← h']
          apply staticNE_addVary
          apply staticNE_append store _ h
          show ({ node1 with name := name } : NodeData).children = []
          have : ({ node1 with name := name } : NodeData).children = node1.children := rfl
          rw [this, hstep]
          exact hch

/-- The invariant survives `parseNode`. -/
theorem staticNE_parseNode (store : List NodeData) (pid : NodeId) (seg : String)
    (ic : Bool) (h : StaticNamesEmpty store) :
    ∀ r, parseNode store pid seg ic = .ok r → StaticNamesEmpty r.1 := by
  intro r hh
  simp only [parseNode] at hh
  split at hh
  · injection hh with h'
    rw [← h']
    exact h
  · split at hh
    · injection hh with h'
      rw [← h']
      exact staticNE_addChild _ _ _ _ h rfl rfl
    · split_ifs at hh <;>
        first
        | exact Except.noConfusion hh
        | (refine staticNE_parseVary _ _ _ _ _ h ?_ r hh; rfl)
        | (injection hh with h'
           rw [← h']
           exact staticNE_addChild _ _ _ _ h rfl rfl)

/-- The invariant survives `defineNode`. -/
theorem staticNE_defineNode (ic : Bool) :
    ∀ (segs : List String) (store : List NodeData) (nid : NodeId)
      (r : List NodeData × NodeId),
      StaticNamesEmpty store → defineNode store nid segs ic = .ok r →
      StaticNamesEmpty r.1 := by
  intro segs
  induction segs with
  | nil =>
    intro store nid r h hh
    exact Except.noConfusion hh
  | cons seg rest ih =>
    intro store nid r h hh
    simp only [defineNode] at hh
    split at hh
    · exact Except.noConfusion hh
    · rename_i store1 childId hpn
      have h1 := staticNE_parseNode store nid seg ic h (store1, childId) hpn
      split_ifs at hh <;>
        first
        | exact Except.noConfusion hh
        | (injection hh with h'
           rw [← h']
           exact staticNE_setNode _ _ _ h1 rfl rfl)
        | exact ih store1 childId r h1 hh

/-- The invariant survives `Trie.define`. -/
theorem staticNE_define (t : Trie) (pattern : String) (res : Trie × NodeId)
    (h : StaticNamesEmpty t.nodes) (hh : t.define pattern = .ok res) :
    StaticNamesEmpty res.1.nodes := by
  simp only [Trie.define] at hh
  split_ifs at hh
  split at hh
  · exact Except.noConfusion hh
  · rename_i store1 nodeId hdn
    injection hh with h'
    rw [← h']
    have h1 := staticNE_defineNode t.ignoreCase _ t.nodes t.root (store1, nodeId) h hdn
    simp only
    split
    · exact staticNE_setNode _ _ _ h1 rfl rfl
    · exact h1

/-- The fresh trie satisfies the invariant. -/
theorem staticNE_new (opts : Options) : StaticNamesEmpty (newTrie opts).nodes := by
  intro n hn p hp
  have : n = { parent := none } := by simpa [newTrie] using hn
  subst this
  simp at hp

/-- The final switch returns the accumulated parameters unchanged. -/
theorem finishWalk_params (tsr fpr : Bool) (store : List NodeData) (path : String)
    (fixedLen : Nat) (pid : NodeId) (params : List (String × String)) :
    (finishWalk tsr fpr store path fixedLen pid params).Params = params := by
  unfold finishWalk
  by_cases h : (getNode store pid).endpoint = true <;>
    simp only [h, if_true, if_false, Bool.false_eq_true] <;> split_ifs <;> rfl

/-- Under the invariant, a `children`-map hit is an unnamed node. -/
theorem getChild_name (store : List NodeData) (pid : NodeId) (s : String)
    (cid : NodeId) (h : StaticNamesEmpty store)
    (hg : getChild store pid s = some cid) : (getNode store cid).name = "" := by
  unfold getChild at hg
  cases hf : (getNode store pid).children.find? (fun p => p.1 = s) with
  | none => rw [hf] at hg; exact Option.noConfusion hg
  | some pr =>
    rw [hf] at hg
    simp only [Option.map_some'] at hg
    have hmem : pr ∈ (getNode store pid).children := List.mem_of_find?_eq_some hf
    by_cases hlt : pid < store.length
    · obtain ⟨_, hb⟩ := h _ (getNode_mem store pid hlt) pr hmem
      rw [← Option.some.inj hg]
      exact hb
    · rw [getNode_oob store pid (Nat.le_of_not_lt hlt)] at hmem
      simp at hmem

/-- Under the invariant, a named `matchNode` hit comes from `varyChildren`:
the segment is nonempty and the child accepted it. -/
theorem matchNodeF_vary (store : List NodeData) (pid : NodeId) (s : String)
    (cid : NodeId) (hm : matchNodeF store pid s = some cid)
    (h : StaticNamesEmpty store) (hname : (getNode store cid).name ≠ "") :
    s ≠ "" ∧ cid ∈ (getNode store pid).varyChildren ∧
      varyAccept store s cid = true := by
  unfold matchNodeF at hm
  cases hg : getChild store pid s with
  | some c =>
    rw [hg] at hm
    injection hm with h'
    subst h'
    exact absurd (getChild_name store pid s c h hg) hname
  | none =>
    rw [hg] at hm
    by_cases hs : s = ""
    · rw [if_pos hs] at hm
      exact Option.noConfusion hm
    · rw [if_neg hs] at hm
      exact ⟨hs, List.mem_of_find?_eq_some hm, List.find?_some hm⟩

/-- Strings with equal character lists are equal. -/
theorem strEq_of_data (s t : String) (h : s.data = t.data) : s = t :=
  congrArg String.mk h

/-- A suffix-constrained acceptance forces the segment to be strictly
longer than the suffix. -/
theorem varyAccept_suffix_len (store : List NodeData) (s : String) (cid : NodeId)
    (ha : varyAccept store s cid = true)
    (hs : (getNode store cid).suffix ≠ "") :
    (getNode store cid).suffix.data.length < s.data.length := by
  unfold varyAccept at ha
  rw [if_pos hs] at ha
  by_cases hcond : s = (getNode store cid).suffix ∨
      ¬ strEndsWith s (getNode store cid).suffix = true
  · rw [if_pos hcond] at ha
    exact Bool.noConfusion ha
  · push_neg at hcond
    obtain ⟨hne, hsfx⟩ := hcond
    have hsuf : (getNode store cid).suffix.data <:+ s.data := by
      have hsb : strEndsWith s (getNode store cid).suffix = true := hsfx
      unfold strEndsWith at hsb
      exact List.isSuffixOf_iff_suffix.mp hsb
    refine lt_of_le_of_ne hsuf.length_le ?_
    intro hlen
    apply hne
    exact (strEq_of_data _ _ (hsuf.eq_of_length hlen)).symm

/-- Setting a nonempty parameter value keeps all values nonempty. -/
theorem setParam_nonempty (ps : List (String × String)) (k v : String)
    (h : ∀ pr ∈ ps, pr.2 ≠ "") (hv : v ≠ "") :
    ∀ pr ∈ setParam ps k v, pr.2 ≠ "" := by
  intro pr hpr
  unfold setParam at hpr
  split at hpr
  · rw [List.mem_map] at hpr
    obtain ⟨q, hq, hqe⟩ := hpr
    by_cases hqk : q.1 = k
    · rw [← hqe, if_pos hqk]
      exact hv
    · rw [← hqe, if_neg hqk]
      exact h q hq
  · rw [List.mem_append] at hpr
    cases hpr with
    | inl hq => exact h pr hq
    | inr hq =>
      have : pr = (k, v) := by simpa using hq
      rw [this]
      exact hv

/-- A joined remainder headed by a nonempty segment is nonempty. -/
theorem joinSlash_ne (s : String) (rest : List String) (hs : s ≠ "") :
    joinSlash (s :: rest) ≠ "" := by
  cases rest with
  | nil => exact hs
  | cons r rs =>
    intro he
    have hd := congrArg String.data he
    simp only [joinSlash] at hd
    rw [String.data_append, String.data_append] at hd
    simp at hd

/-- Dropping fewer characters than the string holds leaves it nonempty. -/
theorem strDropEnd_ne (s : String) (n : Nat) (h : n < s.data.length) :
    strDropEnd s n ≠ "" := by
  intro he
  have hd := congrArg String.data he
  unfold strDropEnd at hd
  have hd2 : s.data.take (s.data.length - n) = ([] : List Char) := hd
  rw [List.take_eq_nil_iff] at hd2
  cases hd2 with
  | inl h0 => omega
  | inr h0 =>
    rw [h0] at h
    simp at h

/-- ASCII lowering keeps the length. -/
theorem strToLower_len (s : String) : (strToLower s).data.length = s.data.length := by
  simp [strToLower]

/-- Auxiliary to C10: under the invariant, the walk loop only ever stores
nonempty parameter values. -/
theorem matchLoop_params (ic tsr fpr : Bool) (store : List NodeData) (path : String)
    (fixedLen : Nat) (h : StaticNamesEmpty store) :
    ∀ (segs : List String) (pid : NodeId) (params : List (String × String)),
      (∀ pr ∈ params, pr.2 ≠ "") →
      ∀ pr ∈ (matchLoop ic tsr fpr store path fixedLen pid params segs).1.Params,
        pr.2 ≠ "" := by
  intro segs
  induction segs with
  | nil =>
    intro pid params hps
    simp only [matchLoop]
    rw [finishWalk_params]
    exact hps
  | cons seg rest ih =>
    intro pid params hps
    simp only [matchLoop]
    cases hm : matchNodeF store pid (if ic = true then strToLower seg else seg) with
    | none =>
      simp only [hm]
      split
      · split
        · exact hps
        · exact hps
      · exact hps
    | some childId =>
      simp only [hm]
      by_cases hname : (getNode store childId).name = ""
      · rw [if_neg (by simp [hname])]
        exact ih childId params hps
      · rw [if_pos hname]
        obtain ⟨hsne, hmemv, hacc⟩ := matchNodeF_vary store pid _ childId hm h hname
        have hsegne : seg ≠ "" := by
          intro he
          subst he
          apply hsne
          cases ic <;> rfl
        by_cases hw : (getNode store childId).wildcard = true
        · rw [if_pos hw]
          rw [finishWalk_params]
          exact setParam_nonempty _ _ _ hps (joinSlash_ne seg rest hsegne)
        · rw [if_neg hw]
          apply ih
          apply setParam_nonempty _ _ _ hps
          by_cases hsfx : (getNode store childId).suffix = ""
          · rw [if_neg (by simp [hsfx])]
            exact hsegne
          · rw [if_pos hsfx]
            apply strDropEnd_ne
            have hlen := varyAccept_suffix_len store _ childId hacc hsfx
            have hll : (if ic = true then strToLower seg else seg).data.length =
                seg.data.length := by
              cases ic
              · rfl
              · exact strToLower_len seg
            rw [hll] at hlen
            exact hlen

/-- C10: every parameter value stored by `Match` is nonempty. The first two
conjuncts show every trie reachable from `New` by `Define` calls satisfies
the `StaticNamesEmpty` invariant (fresh tries do, and `Define` preserves
it); the third shows `Match` on such a trie never stores an empty
parameter value: dynamic children never match an empty segment,
suffix-constrained captures are strictly longer than the suffix before
stripping, and wildcard captures start with a nonempty segment. -/
theorem params_nonempty :
    (∀ opts : Options, StaticNamesEmpty (newTrie opts).nodes) ∧
    (∀ (t : Trie) (pat : String) (res : Trie × NodeId),
      StaticNamesEmpty t.nodes → t.define pat = .ok res →
      StaticNamesEmpty res.1.nodes) ∧
    (∀ (t : Trie) (p : String) (m : Matched),
      StaticNamesEmpty t.nodes → t.match p = .ok m →
      ∀ pr ∈ m.Params, pr.2 ≠ "") := by
  refine ⟨staticNE_new, fun t pat res h hh => staticNE_define t pat res h hh, ?_⟩
  intro t p m h hm
  unfold Trie.match Trie.matchRun at hm
  revert hm
  split
  · intro hm
    simp at hm
  · split
    · intro hm
      simp at hm
    · intro hm
      have hm' := Except.ok.inj hm
      subst hm'
      exact matchLoop_params _ _ _ _ _ _ h _ _ [] (by simp)

/-- C10 witness: the invariant holds for the fresh default trie and is
carried to the `/files/:filepath*` trie, whose match result for
`/files/a/b/c` has only nonempty parameter values. -/
theorem params_nonempty_witness :
    StaticNamesEmpty (newTrie defaultOptions).nodes ∧
    StaticNamesEmpty (trieFiles, 2).1.nodes ∧
    (∀ pr ∈ ({ Node := some 2, Params := [("filepath", "a/b/c")] } : Matched).Params,
      pr.2 ≠ "") :=
  ⟨params_nonempty.1 defaultOptions,
   params_nonempty.2.1 trie0 "/files/:filepath*" (trieFiles, 2) (by decide) rfl,
   params_nonempty.2.2 trieFiles "/files/a/b/c"
     { Node := some 2, Params := [("filepath", "a/b/c")] } (by decide) rfl⟩

end Vira
